import Mathlib

/-!
Shallow embedding of `src/scripts/mammogram_analysis.py` (Breast-Beacon-Backend).

Bytes are modelled as natural numbers (values below 256 in practice), byte
strings as `List Nat`, and floating-point pixel/score values as rationals.
Fallible operations return `Option`/`Except`: `none` models a caught Python
exception turned into a `False` return.  The AES block primitive and the
detection library (`im_detect`, `nms`) are external collaborators of the
script; the AES block maps are abstracted as parameters and the greedy NMS
procedure is modelled from the specification (§4.4).
-/

/-! ## Decryptor (`decrypt_file`, lines 42-60) -/

/-- Bytewise exclusive-or of two byte strings, truncated to the shorter length;
models the XOR of equal-length AES blocks in CBC chaining. -/
def xorBytes (a b : List Nat) : List Nat := List.zipWith Nat.xor a b

/-- Fuelled worker for `toBlocks`; the fuel only forces termination and is
irrelevant once it is at least the list length. -/
def toBlocksAux : Nat → List Nat → List (List Nat)
  | 0, _ => []
  | _ + 1, [] => []
  | fuel + 1, x :: xs => (x :: xs).take 16 :: toBlocksAux fuel ((x :: xs).drop 16)

/-- Split a byte string into consecutive 16-byte chunks, mirroring how the CBC
cipher consumes its input block by block (a trailing chunk is shorter when the
length is not a multiple of 16; the library rejects that case before this is
reached). -/
def toBlocks (l : List Nat) : List (List Nat) := toBlocksAux l.length l

/-- CBC-mode block decryption: each plaintext block is the block decryption of
the ciphertext block XORed with the previous ciphertext block (the IV for the
first block), as `AES.new(key, AES.MODE_CBC, iv).decrypt` computes. -/
def cbcDecBlocks (D : List Nat → List Nat) : List Nat → List (List Nat) → List (List Nat)
  | _, [] => []
  | prev, c :: cs => xorBytes (D c) prev :: cbcDecBlocks D c cs

/-- CBC-mode block encryption (the inverse scheme assumed by the spec's
round-trip property): each ciphertext block is the block encryption of the
plaintext block XORed with the previous ciphertext block. -/
def cbcEncBlocks (E : List Nat → List Nat) : List Nat → List (List Nat) → List (List Nat)
  | _, [] => []
  | prev, p :: ps => E (xorBytes p prev) :: cbcEncBlocks E (E (xorBytes p prev)) ps

/-- CBC decryption of a byte string under block decryption map `D` with
initialization vector `iv`. -/
def cbcDecryptBytes (D : List Nat → List Nat) (iv ct : List Nat) : List Nat :=
  (cbcDecBlocks D iv (toBlocks ct)).flatten

/-- CBC encryption of a byte string under block encryption map `E` with
initialization vector `iv`. -/
def cbcEncryptBytes (E : List Nat → List Nat) (iv pt : List Nat) : List Nat :=
  (cbcEncBlocks E iv (toBlocks pt)).flatten

/-- The AES-256 block cipher instance for a parsed 32-byte key, abstracted as
its block-level encryption and decryption maps (supplied by the external
`Crypto.Cipher.AES` library). -/
structure AESKey where
  enc : List Nat → List Nat
  dec : List Nat → List Nat

/-- Python slice `decrypted[:-pad_len]` as executed at line 53: for positive
`n` it keeps all but the last `n` bytes (everything is dropped when `n` is at
least the length), while for `n = 0` the slice `[:-0] = [:0]` is empty. -/
def stripPadPy (l : List Nat) (n : Nat) : List Nat :=
  if n = 0 then [] else l.take (l.length - n)

/-- Shallow embedding of `decrypt_file` (lines 42-60).  `key` is the parsed
AES key from `MAMMOGRAM_ENCRYPTION_KEY` (`none` when the variable is unset or
unparseable).  `none` models a caught exception and a `False` return with no
plaintext written: missing key, input shorter than a 16-byte IV, ciphertext
that is not a block multiple (the cipher raises), or the `decrypted[-1]` index
error on an empty plaintext.  `some out` models a `True` return with `out`
written to the output path. -/
def decrypt_file (key : Option AESKey) (data : List Nat) : Option (List Nat) :=
  match key with
  | none => none
  | some k =>
    if data.length < 16 then none
    else
      let iv := data.take 16
      let ct := data.drop 16
      if ct.length % 16 ≠ 0 then none
      else
        let decrypted := cbcDecryptBytes k.dec iv ct
        match decrypted.getLast? with
        | none => none
        | some padLen => some (stripPadPy decrypted padLen)

/-- PKCS-style padding as assumed by the spec's round-trip property: append
`n` bytes, each of value `n`. -/
def pkcsPad (pt : List Nat) (n : Nat) : List Nat := pt ++ List.replicate n n

/-! ### Lemmas about the decryptor -/

theorem xorBytes_xorBytes (a b : List Nat) (h : a.length ≤ b.length) :
    xorBytes (xorBytes a b) b = a := by
  induction a generalizing b with
  | nil => simp [xorBytes]
  | cons x xs ih =>
    cases b with
    | nil => simp at h
    | cons y ys =>
      simp only [xorBytes, List.zipWith_cons_cons, List.cons.injEq]
      exact ⟨Nat.xor_cancel_right y x, ih ys (by simpa using h)⟩

theorem length_xorBytes (a b : List Nat) :
    (xorBytes a b).length = min a.length b.length :=
  List.length_zipWith Nat.xor a b

theorem toBlocksAux_congr :
    ∀ (fuel fuel' : Nat) (l : List Nat), l.length ≤ fuel → l.length ≤ fuel' →
      toBlocksAux fuel l = toBlocksAux fuel' l := by
  intro fuel
  induction fuel with
  | zero =>
    intro fuel' l h _
    have : l = [] := List.eq_nil_of_length_eq_zero (Nat.le_zero.mp h)
    subst this
    cases fuel' <;> rfl
  | succ fuel ih =>
    intro fuel' l h h'
    cases l with
    | nil => cases fuel' <;> rfl
    | cons x xs =>
      obtain ⟨f', rfl⟩ : ∃ f', fuel' = f' + 1 := ⟨fuel' - 1, by simp at h'; omega⟩
      simp only [toBlocksAux]
      congr 1
      exact ih f' ((x :: xs).drop 16) (by simp at h ⊢; omega) (by simp at h' ⊢; omega)

theorem toBlocks_eq_cons (l : List Nat) (h : l ≠ []) :
    toBlocks l = l.take 16 :: toBlocks (l.drop 16) := by
  cases l with
  | nil => exact absurd rfl h
  | cons x xs =>
    show toBlocksAux (x :: xs).length (x :: xs) = _
    simp only [List.length_cons, toBlocksAux]
    congr 1
    exact toBlocksAux_congr xs.length ((x :: xs).drop 16).length ((x :: xs).drop 16)
      (by simp only [List.length_drop, List.length_cons]; omega) le_rfl

theorem flatten_toBlocksAux :
    ∀ (fuel : Nat) (l : List Nat), l.length ≤ fuel → (toBlocksAux fuel l).flatten = l := by
  intro fuel
  induction fuel with
  | zero =>
    intro l h
    have : l = [] := List.eq_nil_of_length_eq_zero (Nat.le_zero.mp h)
    subst this; rfl
  | succ fuel ih =>
    intro l h
    cases l with
    | nil => rfl
    | cons x xs =>
      simp only [toBlocksAux, List.flatten_cons]
      rw [ih ((x :: xs).drop 16) (by simp at h ⊢; omega)]
      exact List.take_append_drop 16 (x :: xs)

theorem flatten_toBlocks (l : List Nat) : (toBlocks l).flatten = l :=
  flatten_toBlocksAux l.length l le_rfl

theorem toBlocksAux_mem_length :
    ∀ (fuel : Nat) (l : List Nat), l.length ≤ fuel → l.length % 16 = 0 →
      ∀ b ∈ toBlocksAux fuel l, b.length = 16 := by
  intro fuel
  induction fuel with
  | zero =>
    intro l h _ b hb
    have : l = [] := List.eq_nil_of_length_eq_zero (Nat.le_zero.mp h)
    subst this; simp [toBlocksAux] at hb
  | succ fuel ih =>
    intro l h hmul b hb
    cases l with
    | nil => simp [toBlocksAux] at hb
    | cons x xs =>
      simp only [List.length_cons] at h hmul
      have h16 : 16 ≤ xs.length + 1 := by omega
      simp only [toBlocksAux, List.mem_cons] at hb
      rcases hb with hb | hb
      · subst hb; simp [List.length_take]; omega
      · exact ih ((x :: xs).drop 16) (by simp; omega)
          (by simp [List.length_drop]; omega) b hb

theorem toBlocks_mem_length (l : List Nat) (hmul : l.length % 16 = 0) :
    ∀ b ∈ toBlocks l, b.length = 16 :=
  toBlocksAux_mem_length l.length l le_rfl hmul

theorem toBlocks_flatten (bs : List (List Nat)) (h : ∀ b ∈ bs, b.length = 16) :
    toBlocks bs.flatten = bs := by
  induction bs with
  | nil => rfl
  | cons a t ih =>
    have ha : a.length = 16 := h a (by simp)
    have hane : a ++ t.flatten ≠ [] := by
      intro hc
      have := congrArg List.length hc
      simp [ha] at this
    rw [List.flatten_cons, toBlocks_eq_cons _ hane]
    have htake : (a ++ t.flatten).take 16 = a := by rw [← ha]; simp
    have hdrop : (a ++ t.flatten).drop 16 = t.flatten := by rw [← ha]; simp
    rw [htake, hdrop, ih (fun b hb => h b (by simp [hb]))]

theorem cbcEncBlocks_length (E : List Nat → List Nat)
    (hE : ∀ b, b.length = 16 → (E b).length = 16) :
    ∀ (ps : List (List Nat)) (prev : List Nat), prev.length = 16 →
      (∀ p ∈ ps, p.length = 16) →
      ∀ c ∈ cbcEncBlocks E prev ps, c.length = 16 := by
  intro ps
  induction ps with
  | nil => intro prev _ _ c hc; simp [cbcEncBlocks] at hc
  | cons p ps ih =>
    intro prev hprev hall c hc
    have hp : p.length = 16 := hall p (by simp)
    have hx : (xorBytes p prev).length = 16 := by
      rw [length_xorBytes, hp, hprev]; simp
    have hc1 : (E (xorBytes p prev)).length = 16 := hE _ hx
    simp only [cbcEncBlocks, List.mem_cons] at hc
    rcases hc with hc | hc
    · subst hc; exact hc1
    · exact ih _ hc1 (fun q hq => hall q (by simp [hq])) c hc

theorem cbcDec_cbcEnc (E D : List Nat → List Nat)
    (hDE : ∀ b, D (E b) = b)
    (hE : ∀ b, b.length = 16 → (E b).length = 16) :
    ∀ (ps : List (List Nat)) (prev : List Nat), prev.length = 16 →
      (∀ p ∈ ps, p.length = 16) →
      cbcDecBlocks D prev (cbcEncBlocks E prev ps) = ps := by
  intro ps
  induction ps with
  | nil => intro prev _ _; simp [cbcEncBlocks, cbcDecBlocks]
  | cons p ps ih =>
    intro prev hprev hall
    have hp : p.length = 16 := hall p (by simp)
    have hx : (xorBytes p prev).length = 16 := by
      rw [length_xorBytes, hp, hprev]; simp
    simp only [cbcEncBlocks, cbcDecBlocks, hDE]
    rw [xorBytes_xorBytes p prev (by omega)]
    rw [ih (E (xorBytes p prev)) (hE _ hx) (fun q hq => hall q (by simp [hq]))]

theorem cbcDecBlocks_mem_length (D : List Nat → List Nat)
    (hD : ∀ b, b.length = 16 → (D b).length = 16) :
    ∀ (cs : List (List Nat)) (prev : List Nat), prev.length = 16 →
      (∀ c ∈ cs, c.length = 16) →
      ∀ b ∈ cbcDecBlocks D prev cs, b.length = 16 := by
  intro cs
  induction cs with
  | nil => intro prev _ _ b hb; simp [cbcDecBlocks] at hb
  | cons c cs ih =>
    intro prev hprev hall b hb
    have hc : c.length = 16 := hall c (by simp)
    simp only [cbcDecBlocks, List.mem_cons] at hb
    rcases hb with hb | hb
    · subst hb
      rw [length_xorBytes, hD c hc, hprev]; simp
    · exact ih c hc (fun q hq => hall q (by simp [hq])) b hb

theorem cbcEncBlocks_count (E : List Nat → List Nat) :
    ∀ (ps : List (List Nat)) (prev : List Nat),
      (cbcEncBlocks E prev ps).length = ps.length := by
  intro ps
  induction ps with
  | nil => intro prev; rfl
  | cons p ps ih => intro prev; simp [cbcEncBlocks, ih]

theorem cbcDecBlocks_count (D : List Nat → List Nat) :
    ∀ (cs : List (List Nat)) (prev : List Nat),
      (cbcDecBlocks D prev cs).length = cs.length := by
  intro cs
  induction cs with
  | nil => intro prev; rfl
  | cons c cs ih => intro prev; simp [cbcDecBlocks, ih]

theorem flatten_length_of_mem16 (bs : List (List Nat)) (h : ∀ b ∈ bs, b.length = 16) :
    bs.flatten.length = 16 * bs.length := by
  induction bs with
  | nil => simp
  | cons a t ih =>
    simp only [List.flatten_cons, List.length_append, List.length_cons]
    rw [h a (by simp), ih (fun b hb => h b (by simp [hb]))]
    ring

theorem cbcDecryptBytes_length (D : List Nat → List Nat)
    (hD : ∀ b, b.length = 16 → (D b).length = 16)
    (iv ct : List Nat) (hiv : iv.length = 16) (hmul : ct.length % 16 = 0) :
    (cbcDecryptBytes D iv ct).length = ct.length := by
  unfold cbcDecryptBytes
  have hblocks := toBlocks_mem_length ct hmul
  rw [flatten_length_of_mem16 _ (cbcDecBlocks_mem_length D hD (toBlocks ct) iv hiv hblocks),
    cbcDecBlocks_count]
  have := flatten_length_of_mem16 (toBlocks ct) hblocks
  rw [flatten_toBlocks] at this
  omega

/-! ## Image Loader/Normalizer (`preprocess_image`, lines 62-80) -/

/-- Maximum pixel value of an image (numpy `img.max()`), as a nested fold with
base 0; on the nonnegative pixel arrays the code operates on, this is the true
maximum. -/
def imgMax (img : List (List ℚ)) : ℚ :=
  (img.map (fun r => r.foldr max 0)).foldr max 0

/-- MONOCHROME1 inversion at line 68: `img = img.max() - img`. -/
def invertImg (img : List (List ℚ)) : List (List ℚ) :=
  img.map (fun r => r.map (fun v => imgMax img - v))

/-- Max-based rescale at lines 69 and 72: `img = 255.0 * img / img.max()`,
elementwise; rational division stands in for the float arithmetic, and a zero
divisor is left exactly as unguarded as in the code. -/
def rescaleImg (img : List (List ℚ)) : List (List ℚ) :=
  img.map (fun r => r.map (fun v => 255 * v / imgMax img))

/-- The divisor `img.max()` that line 69 (DICOM path, after the optional
MONOCHROME1 inversion) or line 72 (non-DICOM path) divides by. -/
def rescaleDivisor (isDicom mono1 : Bool) (img : List (List ℚ)) : ℚ :=
  if isDicom then
    if mono1 then imgMax (invertImg img) else imgMax img
  else imgMax img

/-- numpy casting of a float value into a `np.uint8` array slot (assignments
at lines 74-76): truncation toward zero; the values stored are nonnegative on
every defined path. -/
def toU8 (q : ℚ) : Nat := ⌊q⌋.toNat

/-- The 8-bit three-channel array built at lines 73-77. -/
structure NormalizedImage where
  ch0 : List (List Nat)
  ch1 : List (List Nat)
  ch2 : List (List Nat)
deriving DecidableEq

/-- Shallow embedding of `preprocess_image` (lines 62-80) after the pixel
array has been loaded from disk: the DICOM path optionally inverts
MONOCHROME1 data and rescales by the (post-inversion) maximum; the non-DICOM
path rescales the grayscale array by its own maximum; the rescaled channel is
then written identically into all three channels of a fresh `uint8` array
with the source's height and width. -/
def preprocess_image (isDicom mono1 : Bool) (img : List (List ℚ)) : NormalizedImage :=
  let g :=
    if isDicom then rescaleImg (if mono1 then invertImg img else img)
    else rescaleImg img
  let u := g.map (fun r => r.map toU8)
  ⟨u, u, u⟩

/-! ## Detection filter (`analyze_mammogram`, lines 92-114) -/

/-- One row of the `dets` matrix built at line 100: four box coordinates for
the lesion class and the class score. -/
structure Det where
  x1 : ℚ
  y1 : ℚ
  x2 : ℚ
  y2 : ℚ
  score : ℚ
deriving DecidableEq

/-- Slicing at lines 97-100 for one proposal: `cls_boxes = boxes[:, 4:8]`
(class index 1) and `cls_scores = scores[:, 1]`, h-stacked into a `Det`. -/
def mkDet (boxRow scoreRow : List ℚ) : Det :=
  { x1 := ((boxRow.drop 4).take 4).getD 0 0
    y1 := ((boxRow.drop 4).take 4).getD 1 0
    x2 := ((boxRow.drop 4).take 4).getD 2 0
    y2 := ((boxRow.drop 4).take 4).getD 3 0
    score := scoreRow.getD 1 0 }

/-- The `dets` matrix of lines 98-100, one `Det` per proposal row. -/
def mkDets (scores boxes : List (List ℚ)) : List Det :=
  (List.zip boxes scores).map (fun p => mkDet p.1 p.2)

/-- Score ordering used to sort NMS candidates descending. -/
def detGE (a b : Det) : Prop := b.score ≤ a.score

instance : DecidableRel detGE :=
  fun a b => inferInstanceAs (Decidable (b.score ≤ a.score))

instance : IsTotal Det detGE := ⟨fun a b => le_total b.score a.score⟩

instance : IsTrans Det detGE := ⟨fun _ _ _ h1 h2 => le_trans h2 h1⟩

/-- Fuelled greedy suppression pass; the fuel only forces termination and is
sufficient whenever it is at least the list length, since each step consumes
the head and only filters the tail. -/
def nmsAux (iou : Det → Det → ℚ) (thresh : ℚ) : Nat → List Det → List Det
  | 0, _ => []
  | _ + 1, [] => []
  | fuel + 1, d :: rest =>
    d :: nmsAux iou thresh fuel (rest.filter (fun e => decide (iou d e ≤ thresh)))

/-- Modelled from the spec: the external library call `nms(dets, 0.3)` of
line 101 (`py_faster_rcnn`'s greedy non-max suppression, not part of this
repository), per §4.4: sort candidates by score descending, repeatedly keep
the highest remaining, discard any remaining box whose IoU with a kept box
exceeds the threshold.  The IoU measure itself is a parameter. -/
def nmsKeep (iou : Det → Det → ℚ) (thresh : ℚ) (dets : List Det) : List Det :=
  nmsAux iou thresh (List.insertionSort detGE dets).length (List.insertionSort detGE dets)

/-- Confidence threshold of line 36: `CONF_THRESH = 0.8`. -/
def CONF_THRESH : ℚ := 8 / 10

/-- One output record of lines 104-107: bounding box plus confidence. -/
structure Detection where
  x_min : ℚ
  y_min : ℚ
  x_max : ℚ
  y_max : ℚ
  confidence : ℚ
deriving DecidableEq

/-- Record building at lines 104-107. -/
def toDetection (d : Det) : Detection := ⟨d.x1, d.y1, d.x2, d.y2, d.score⟩

/-- The kept rows after lines 101-109: NMS at `cfg.TEST.NMS = 0.3` followed by
the comprehension filter `det[-1] >= CONF_THRESH`. -/
def analyze_dets (iou : Det → Det → ℚ) (scores boxes : List (List ℚ)) : List Det :=
  (nmsKeep iou (3 / 10) (mkDets scores boxes)).filter
    (fun d => decide (CONF_THRESH ≤ d.score))

/-- The result list returned by `analyze_mammogram` (lines 92-114) as a
function of the detector output `(scores, boxes)` delivered by the external
`im_detect` call. -/
def analyze_mammogram (iou : Det → Det → ℚ) (scores boxes : List (List ℚ)) :
    List Detection :=
  (analyze_dets iou scores boxes).map toDetection

/-! ## Run controller (`main`, lines 116-146) -/

/-- One JSON object printed to standard output: the success record of lines
129-135 or the error record of lines 139-145. -/
inductive RunOutput where
  | success (detections : List Detection)
  | error (msg : String)
deriving DecidableEq

/-- Externally observable outcome of one `main` run: the JSON objects printed
to standard output in order, the process exit code, and whether the
`--output` plaintext path exists when the process exits. -/
structure MainResult where
  printed : List RunOutput
  exitCode : Nat
  outputExists : Bool
deriving DecidableEq

/-- Shallow embedding of `main` (lines 125-146) after argument parsing.
`key`/`data` feed `decrypt_file`; `detect` is the oracle outcome of the
external stages (`preprocess_image`, `load_net`, `im_detect`): either the
detector's `(scores, boxes)` or the message of the exception that escaped.
On decrypt failure `sys.exit(1)` raises `SystemExit`, which `except
Exception` does not catch, so nothing is printed; only `decrypt_file` ever
creates the plaintext path and only the `os.remove` at line 136 (reached
after the success print) deletes it. -/
def main_run (key : Option AESKey) (data : List Nat) (iou : Det → Det → ℚ)
    (detect : Except String (List (List ℚ) × List (List ℚ))) : MainResult :=
  match decrypt_file key data with
  | none => { printed := [], exitCode := 1, outputExists := false }
  | some _ =>
    match detect with
    | .error msg => { printed := [.error msg], exitCode := 1, outputExists := true }
    | .ok sb =>
      { printed := [.success (analyze_mammogram iou sb.1 sb.2)], exitCode := 0,
        outputExists := false }

/-! ## Helper facts about `decrypt_file` -/

/-- On a well-formed input (key present, an IV plus a nonempty block-multiple
ciphertext) with a length-preserving block decryption, `decrypt_file` reaches
the padding strip: it returns the CBC plaintext with the Python slice
`[:-pad_len]` applied, where `pad_len` is the plaintext's last byte. -/
theorem decrypt_file_eq_some (k : AESKey) (data : List Nat)
    (hD : ∀ b, b.length = 16 → (k.dec b).length = 16)
    (h16 : 16 < data.length)
    (hmul : (data.length - 16) % 16 = 0) :
    ∃ N, (cbcDecryptBytes k.dec (data.take 16) (data.drop 16)).getLast? = some N ∧
      decrypt_file (some k) data =
        some (stripPadPy (cbcDecryptBytes k.dec (data.take 16) (data.drop 16)) N) := by
  have hivlen : (data.take 16).length = 16 := by
    simp [List.length_take]; omega
  have hctlen : (data.drop 16).length = data.length - 16 := by simp
  have hctmul : (data.drop 16).length % 16 = 0 := by rw [hctlen]; exact hmul
  have hdeclen : (cbcDecryptBytes k.dec (data.take 16) (data.drop 16)).length =
      data.length - 16 := by
    rw [cbcDecryptBytes_length k.dec hD _ _ hivlen hctmul, hctlen]
  have hdecne : cbcDecryptBytes k.dec (data.take 16) (data.drop 16) ≠ [] := by
    intro hc
    rw [hc] at hdeclen
    simp at hdeclen
    omega
  obtain ⟨N, hN⟩ : ∃ N,
      (cbcDecryptBytes k.dec (data.take 16) (data.drop 16)).getLast? = some N := by
    cases hl : (cbcDecryptBytes k.dec (data.take 16) (data.drop 16)).getLast? with
    | none => exact absurd (List.getLast?_eq_none_iff.mp hl) hdecne
    | some a => exact ⟨a, rfl⟩
  refine ⟨N, hN, ?_⟩
  simp only [decrypt_file]
  rw [if_neg (by omega : ¬ data.length < 16)]
  simp only [hctmul, ne_eq, not_true_eq_false, if_false, hN]

/-- The identity block maps, standing in for a concrete cipher instance in
closed evaluations (a legitimate `AESKey` shape: length-preserving and
mutually inverse). -/
def idKey : AESKey := ⟨fun b => b, fun b => b⟩

/-! ## Claim C1 -/

/-- C1 fails as stated: on this 32-byte input the CBC plaintext is the 16-byte
block `[1,…,15,0]` whose last byte is `N = 0`, so the claim predicts that zero
trailing bytes are stripped and the full 16 bytes are written; `decrypt_file`
instead writes the empty byte string, because the Python slice `[:-0]` is
empty. -/
theorem pad_zero_empties_output :
    decrypt_file (some idKey)
        (List.replicate 16 0 ++ [1, 2, 3, 4, 5, 6, 7, 8, 9, 10, 11, 12, 13, 14, 15, 0]) =
      some [] ∧
    cbcDecryptBytes idKey.dec
        ((List.replicate 16 0 ++
          [1, 2, 3, 4, 5, 6, 7, 8, 9, 10, 11, 12, 13, 14, 15, 0]).take 16)
        ((List.replicate 16 0 ++
          [1, 2, 3, 4, 5, 6, 7, 8, 9, 10, 11, 12, 13, 14, 15, 0]).drop 16) =
      [1, 2, 3, 4, 5, 6, 7, 8, 9, 10, 11, 12, 13, 14, 15, 0] ∧
    ([] : List Nat) ≠ [1, 2, 3, 4, 5, 6, 7, 8, 9, 10, 11, 12, 13, 14, 15, 0] := by
  refine ⟨by decide, by decide, by decide⟩

/-- C1 (amended): `decrypt_file` performs no validation of the padding bytes
(the plaintext below is arbitrary): writing `N` for the last plaintext byte,
when `1 ≤ N ≤ length` it strips exactly the `N` trailing bytes — the output is
a prefix whose length plus `N` is the plaintext length and whose concatenation
with the dropped suffix restores the plaintext — but when `N = 0` the whole
plaintext is discarded and the empty byte string is written (Python's
`[:-0]`), not the untouched plaintext the claim describes. -/
theorem decrypt_strips_declared_pad (k : AESKey) (data : List Nat)
    (hD : ∀ b, b.length = 16 → (k.dec b).length = 16)
    (h16 : 16 < data.length)
    (hmul : (data.length - 16) % 16 = 0) :
    ∃ dec N out,
      dec = cbcDecryptBytes k.dec (data.take 16) (data.drop 16) ∧
      dec.getLast? = some N ∧
      decrypt_file (some k) data = some out ∧
      (1 ≤ N → out = dec.take (dec.length - N) ∧
        (N ≤ dec.length → out.length + N = dec.length ∧
          out ++ dec.drop (dec.length - N) = dec)) ∧
      (N = 0 → out = []) := by
  obtain ⟨N, hN, heq⟩ := decrypt_file_eq_some k data hD h16 hmul
  refine ⟨cbcDecryptBytes k.dec (data.take 16) (data.drop 16), N,
    stripPadPy (cbcDecryptBytes k.dec (data.take 16) (data.drop 16)) N,
    rfl, hN, heq, ?_, ?_⟩
  · intro hN1
    have hne : N ≠ 0 := by omega
    refine ⟨by simp [stripPadPy, hne], fun hNle => ⟨?_, ?_⟩⟩
    · simp [stripPadPy, hne, List.length_take]
      omega
    · simp [stripPadPy, hne, List.take_append_drop]
  · intro h0
    simp [stripPadPy, h0]

/-- Closed witness for `decrypt_strips_declared_pad` at a 32-byte input whose
CBC plaintext ends in the pad byte 1. -/
theorem decrypt_strips_declared_pad_witness :
    ∃ dec N out,
      dec = cbcDecryptBytes idKey.dec
        ((List.replicate 16 0 ++
          [1, 2, 3, 4, 5, 6, 7, 8, 9, 10, 11, 12, 13, 14, 15, 1]).take 16)
        ((List.replicate 16 0 ++
          [1, 2, 3, 4, 5, 6, 7, 8, 9, 10, 11, 12, 13, 14, 15, 1]).drop 16) ∧
      dec.getLast? = some N ∧
      decrypt_file (some idKey)
        (List.replicate 16 0 ++
          [1, 2, 3, 4, 5, 6, 7, 8, 9, 10, 11, 12, 13, 14, 15, 1]) = some out ∧
      (1 ≤ N → out = dec.take (dec.length - N) ∧
        (N ≤ dec.length → out.length + N = dec.length ∧
          out ++ dec.drop (dec.length - N) = dec)) ∧
      (N = 0 → out = []) :=
  decrypt_strips_declared_pad idKey
    (List.replicate 16 0 ++ [1, 2, 3, 4, 5, 6, 7, 8, 9, 10, 11, 12, 13, 14, 15, 1])
    (fun _ h => h) (by decide) (by decide)

/-! ## Claim C7 -/

/-- C7: for any plaintext whose PKCS-padded form has positive length that is a
multiple of the AES block size, encrypting with CBC under a block cipher pair
(`k.dec` inverts `k.enc`, blocks stay 16 bytes) and a 16-byte IV, then running
`decrypt_file` on the IV-prefixed ciphertext with the same key, writes exactly
the original plaintext bytes. -/
theorem decrypt_encrypt_roundtrip (k : AESKey) (iv pt : List Nat) (n : Nat)
    (hDE : ∀ b, k.dec (k.enc b) = b)
    (hE : ∀ b, b.length = 16 → (k.enc b).length = 16)
    (hiv : iv.length = 16)
    (hn : 1 ≤ n)
    (hmul : (pt.length + n) % 16 = 0) :
    decrypt_file (some k) (iv ++ cbcEncryptBytes k.enc iv (pkcsPad pt n)) = some pt := by
  have hplen : (pkcsPad pt n).length = pt.length + n := by simp [pkcsPad]
  have hpmul : (pkcsPad pt n).length % 16 = 0 := by rw [hplen]; exact hmul
  have hblocks : ∀ b ∈ toBlocks (pkcsPad pt n), b.length = 16 :=
    toBlocks_mem_length _ hpmul
  have hencBs : ∀ c ∈ cbcEncBlocks k.enc iv (toBlocks (pkcsPad pt n)), c.length = 16 :=
    cbcEncBlocks_length k.enc hE _ iv hiv hblocks
  have hct : cbcEncryptBytes k.enc iv (pkcsPad pt n) =
      (cbcEncBlocks k.enc iv (toBlocks (pkcsPad pt n))).flatten := rfl
  have hctlen : (cbcEncryptBytes k.enc iv (pkcsPad pt n)).length =
      16 * (cbcEncBlocks k.enc iv (toBlocks (pkcsPad pt n))).length := by
    rw [hct]; exact flatten_length_of_mem16 _ hencBs
  have hdatalen : (iv ++ cbcEncryptBytes k.enc iv (pkcsPad pt n)).length =
      16 + (cbcEncryptBytes k.enc iv (pkcsPad pt n)).length := by
    simp [hiv]
  have hctpos : 0 < (cbcEncryptBytes k.enc iv (pkcsPad pt n)).length := by
    have hppos : 0 < (pkcsPad pt n).length := by rw [hplen]; omega
    have hbne : (toBlocks (pkcsPad pt n)).length ≠ 0 := by
      intro hc
      have hnil : toBlocks (pkcsPad pt n) = [] := List.eq_nil_of_length_eq_zero hc
      have h0 := flatten_toBlocks (pkcsPad pt n)
      rw [hnil] at h0
      have hz : (pkcsPad pt n).length = 0 := by rw [← h0]; rfl
      omega
    rw [hctlen, cbcEncBlocks_count]
    omega
  have htake : (iv ++ cbcEncryptBytes k.enc iv (pkcsPad pt n)).take 16 = iv := by
    rw [← hiv]; exact List.take_left iv _
  have hdrop : (iv ++ cbcEncryptBytes k.enc iv (pkcsPad pt n)).drop 16 =
      cbcEncryptBytes k.enc iv (pkcsPad pt n) := by
    rw [← hiv]; exact List.drop_left iv _
  have hdec : cbcDecryptBytes k.dec iv (cbcEncryptBytes k.enc iv (pkcsPad pt n)) =
      pkcsPad pt n := by
    unfold cbcDecryptBytes
    rw [hct, toBlocks_flatten _ hencBs,
      cbcDec_cbcEnc k.enc k.dec hDE hE _ iv hiv hblocks, flatten_toBlocks]
  have hlast : (pkcsPad pt n).getLast? = some n := by
    unfold pkcsPad
    simp [List.getLast?_append, List.getLast?_replicate]
    omega
  have hctmul : (cbcEncryptBytes k.enc iv (pkcsPad pt n)).length % 16 = 0 := by
    rw [hctlen]
    omega
  simp only [decrypt_file]
  rw [if_neg (by omega : ¬ (iv ++ cbcEncryptBytes k.enc iv (pkcsPad pt n)).length < 16)]
  simp only [htake, hdrop, hctmul, ne_eq, not_true_eq_false, if_false, hdec, hlast]
  have hstrip : stripPadPy (pkcsPad pt n) n = pt := by
    unfold stripPadPy pkcsPad
    rw [if_neg (by omega : ¬ n = 0)]
    have : (pt ++ List.replicate n n).length - n = pt.length := by
      simp
    rw [this]
    exact List.take_left pt _
  rw [hstrip]

/-- Closed witness for `decrypt_encrypt_roundtrip`: a 12-byte plaintext padded
with four bytes of value 4, under the identity block maps and an all-zero IV. -/
theorem decrypt_encrypt_roundtrip_witness :
    decrypt_file (some idKey)
        (List.replicate 16 0 ++
          cbcEncryptBytes idKey.enc (List.replicate 16 0)
            (pkcsPad (List.replicate 12 7) 4)) =
      some (List.replicate 12 7) :=
  decrypt_encrypt_roundtrip idKey (List.replicate 16 0) (List.replicate 12 7) 4
    (fun _ => rfl) (fun _ h => h) (by decide) (by decide) (by decide)

/-! ## Claim C10 -/

/-- C10: for every key whose block maps have the AES shape — the data need not
have been encrypted under it — and every input consisting of a 16-byte IV
followed by a nonempty block-multiple ciphertext, `decrypt_file` reports
success and writes an output file; moreover whenever the last plaintext byte
exceeds the plaintext length the written output is empty rather than an
error. -/
theorem decrypt_ignores_key_validity (k : AESKey) (data : List Nat)
    (hD : ∀ b, b.length = 16 → (k.dec b).length = 16)
    (h16 : 16 < data.length)
    (hmul : (data.length - 16) % 16 = 0) :
    ∃ out, decrypt_file (some k) data = some out ∧
      ∀ N, (cbcDecryptBytes k.dec (data.take 16) (data.drop 16)).getLast? = some N →
        (cbcDecryptBytes k.dec (data.take 16) (data.drop 16)).length < N →
        out = [] := by
  obtain ⟨N, hN, heq⟩ := decrypt_file_eq_some k data hD h16 hmul
  refine ⟨stripPadPy (cbcDecryptBytes k.dec (data.take 16) (data.drop 16)) N, heq, ?_⟩
  intro N' hN' hlt
  rw [hN] at hN'
  obtain rfl : N = N' := by injection hN'
  unfold stripPadPy
  rcases Nat.eq_zero_or_pos N with h0 | hpos
  · simp [h0]
  · rw [if_neg (by omega : ¬ N = 0)]
    rw [Nat.sub_eq_zero_of_le (le_of_lt hlt)]
    simp

/-- Closed witness for `decrypt_ignores_key_validity` at a 32-byte input under
the identity block maps. -/
theorem decrypt_ignores_key_validity_witness :
    ∃ out, decrypt_file (some idKey)
        (List.replicate 16 0 ++
          [9, 9, 9, 9, 9, 9, 9, 9, 9, 9, 9, 9, 9, 9, 9, 200]) = some out ∧
      ∀ N, (cbcDecryptBytes idKey.dec
          ((List.replicate 16 0 ++
            [9, 9, 9, 9, 9, 9, 9, 9, 9, 9, 9, 9, 9, 9, 9, 200]).take 16)
          ((List.replicate 16 0 ++
            [9, 9, 9, 9, 9, 9, 9, 9, 9, 9, 9, 9, 9, 9, 9, 200]).drop 16)).getLast? =
          some N →
        (cbcDecryptBytes idKey.dec
          ((List.replicate 16 0 ++
            [9, 9, 9, 9, 9, 9, 9, 9, 9, 9, 9, 9, 9, 9, 9, 200]).take 16)
          ((List.replicate 16 0 ++
            [9, 9, 9, 9, 9, 9, 9, 9, 9, 9, 9, 9, 9, 9, 9, 200]).drop 16)).length < N →
        out = [] :=
  decrypt_ignores_key_validity idKey
    (List.replicate 16 0 ++ [9, 9, 9, 9, 9, 9, 9, 9, 9, 9, 9, 9, 9, 9, 9, 200])
    (fun _ h => h) (by decide) (by decide)

/-! ## Claim C5 -/

/-- C5: whenever `decrypt_file` reports failure — in particular when
`MAMMOGRAM_ENCRYPTION_KEY` is absent, in which case it fails before any file
is opened — the run exits with status 1 and prints no JSON object, and the
plaintext path was never created; the missing-key failure itself holds for
every input. -/
theorem decrypt_failure_exit (key : Option AESKey) (data : List Nat)
    (iou : Det → Det → ℚ) (detect : Except String (List (List ℚ) × List (List ℚ)))
    (hfail : decrypt_file key data = none) :
    (main_run key data iou detect).printed = [] ∧
    (main_run key data iou detect).exitCode = 1 ∧
    (main_run key data iou detect).outputExists = false ∧
    ∀ d : List Nat, decrypt_file none d = none := by
  unfold main_run
  rw [hfail]
  exact ⟨rfl, rfl, rfl, fun _ => rfl⟩

/-- Closed witness for `decrypt_failure_exit`: the missing-key run on an
arbitrary concrete input. -/
theorem decrypt_failure_exit_witness :
    (main_run none [0, 1, 2] (fun _ _ => 0) (Except.ok ([], []))).printed = [] ∧
    (main_run none [0, 1, 2] (fun _ _ => 0) (Except.ok ([], []))).exitCode = 1 ∧
    (main_run none [0, 1, 2] (fun _ _ => 0) (Except.ok ([], []))).outputExists = false ∧
    ∀ d : List Nat, decrypt_file none d = none :=
  decrypt_failure_exit none [0, 1, 2] (fun _ _ => 0) (Except.ok ([], [])) rfl

/-! ## Claim C3 -/

/-- C3: cleanup invariant of `main`.  A run whose standard output is a single
success record leaves the plaintext temp path deleted; a run whose standard
output is a single error record leaves it in place (in that branch decryption
succeeded, so the file was created, and the `os.remove` at line 136 is never
reached). -/
theorem cleanup_invariant (key : Option AESKey) (data : List Nat)
    (iou : Det → Det → ℚ) (detect : Except String (List (List ℚ) × List (List ℚ))) :
    ((∃ r, (main_run key data iou detect).printed = [RunOutput.success r]) →
      (main_run key data iou detect).outputExists = false) ∧
    ((∃ m, (main_run key data iou detect).printed = [RunOutput.error m]) →
      (main_run key data iou detect).outputExists = true) := by
  unfold main_run
  cases hd : decrypt_file key data with
  | none => exact ⟨fun _ => rfl, fun ⟨m, hm⟩ => by simp at hm⟩
  | some pt =>
    cases detect with
    | error msg => exact ⟨fun ⟨r, hr⟩ => by simp at hr, fun _ => rfl⟩
    | ok sb => exact ⟨fun _ => rfl, fun ⟨m, hm⟩ => by simp at hm⟩

/-- Closed witness for `cleanup_invariant`: a run that decrypts successfully
and then fails in the analysis stage emits one error record and leaves the
plaintext file on disk. -/
theorem cleanup_invariant_witness :
    (main_run (some idKey)
      (List.replicate 16 0 ++ [1, 2, 3, 4, 5, 6, 7, 8, 9, 10, 11, 12, 13, 14, 15, 1])
      (fun _ _ => 0) (Except.error "model load failed")).outputExists = true :=
  (cleanup_invariant (some idKey)
      (List.replicate 16 0 ++ [1, 2, 3, 4, 5, 6, 7, 8, 9, 10, 11, 12, 13, 14, 15, 1])
      (fun _ _ => 0) (Except.error "model load failed")).2
    ⟨"model load failed", by decide⟩

/-! ## Claim C4 -/

/-- C4 fails as stated: the missing-key invocation prints zero JSON objects,
not exactly one — `sys.exit(1)` at line 127 raises `SystemExit`, which the
`except Exception` handler does not catch, so neither record is printed. -/
theorem decrypt_failure_prints_nothing :
    (main_run none [] (fun _ _ => 0) (Except.ok ([], []))).printed = [] ∧
    (main_run none [] (fun _ _ => 0) (Except.ok ([], []))).printed.length ≠ 1 := by
  refine ⟨rfl, by decide⟩

/-- C4 (amended): every invocation prints at most one JSON object — exactly
one (a single success record or a single error record, never both, never more)
when decryption succeeds, and none at all when decryption fails. -/
theorem at_most_one_output (key : Option AESKey) (data : List Nat)
    (iou : Det → Det → ℚ) (detect : Except String (List (List ℚ) × List (List ℚ))) :
    (main_run key data iou detect).printed.length ≤ 1 ∧
    ((∃ pt, decrypt_file key data = some pt) →
      ((∃ r, (main_run key data iou detect).printed = [RunOutput.success r]) ∨
        (∃ m, (main_run key data iou detect).printed = [RunOutput.error m]))) ∧
    (decrypt_file key data = none → (main_run key data iou detect).printed = []) := by
  unfold main_run
  cases hd : decrypt_file key data with
  | none =>
    refine ⟨by simp, fun ⟨pt, hpt⟩ => by simp at hpt, fun _ => rfl⟩
  | some pt =>
    cases detect with
    | error msg =>
      exact ⟨by simp, fun _ => Or.inr ⟨msg, rfl⟩, fun hc => by simp at hc⟩
    | ok sb =>
      exact ⟨by simp, fun _ => Or.inl ⟨_, rfl⟩, fun hc => by simp at hc⟩

/-- Closed witness for `at_most_one_output`: a successful run prints exactly
one record, a success record. -/
theorem at_most_one_output_witness :
    (∃ r, (main_run (some idKey)
      (List.replicate 16 0 ++ [1, 2, 3, 4, 5, 6, 7, 8, 9, 10, 11, 12, 13, 14, 15, 1])
      (fun _ _ => 0) (Except.ok ([], []))).printed = [RunOutput.success r]) ∨
    (∃ m, (main_run (some idKey)
      (List.replicate 16 0 ++ [1, 2, 3, 4, 5, 6, 7, 8, 9, 10, 11, 12, 13, 14, 15, 1])
      (fun _ _ => 0) (Except.ok ([], []))).printed = [RunOutput.error m]) :=
  (at_most_one_output (some idKey)
      (List.replicate 16 0 ++ [1, 2, 3, 4, 5, 6, 7, 8, 9, 10, 11, 12, 13, 14, 15, 1])
      (fun _ _ => 0) (Except.ok ([], []))).2.1
    ⟨[1, 2, 3, 4, 5, 6, 7, 8, 9, 10, 11, 12, 13, 14, 15], by decide⟩

/-! ### Lemmas about the greedy suppression -/

theorem nmsAux_sublist (iou : Det → Det → ℚ) (t : ℚ) :
    ∀ (fuel : Nat) (l : List Det), List.Sublist (nmsAux iou t fuel l) l := by
  intro fuel
  induction fuel with
  | zero => intro l; exact List.nil_sublist l
  | succ fuel ih =>
    intro l
    cases l with
    | nil => exact List.nil_sublist []
    | cons d rest =>
      exact List.Sublist.cons₂ d ((ih _).trans (List.filter_sublist rest))

theorem nmsAux_pairwise (iou : Det → Det → ℚ) (t : ℚ) :
    ∀ (fuel : Nat) (l : List Det),
      List.Pairwise (fun a b => iou a b ≤ t) (nmsAux iou t fuel l) := by
  intro fuel
  induction fuel with
  | zero => intro l; exact List.Pairwise.nil
  | succ fuel ih =>
    intro l
    cases l with
    | nil => exact List.Pairwise.nil
    | cons d rest =>
      refine List.Pairwise.cons ?_ (ih _)
      intro e he
      have hmem : e ∈ rest.filter (fun e => decide (iou d e ≤ t)) :=
        (nmsAux_sublist iou t fuel _).mem he
      exact of_decide_eq_true (List.mem_filter.mp hmem).2

theorem nmsKeep_sorted (iou : Det → Det → ℚ) (t : ℚ) (dets : List Det) :
    List.Sorted detGE (nmsKeep iou t dets) :=
  (List.sorted_insertionSort detGE dets).sublist (nmsAux_sublist iou t _ _)

theorem nmsKeep_pairwise (iou : Det → Det → ℚ) (t : ℚ) (dets : List Det) :
    List.Pairwise (fun a b => iou a b ≤ t) (nmsKeep iou t dets) :=
  nmsAux_pairwise iou t _ _

/-- Inverse of `toDetection`, recovering the `dets` row behind an output
record. -/
def ofDetection (d : Detection) : Det :=
  ⟨d.x_min, d.y_min, d.x_max, d.y_max, d.confidence⟩

/-! ## Claim C2 -/

/-- C2: every detection returned by `analyze_mammogram` has confidence at
least `CONF_THRESH = 0.8`, and among the surviving boxes — listed in kept
order, each earlier box scoring at least as high — no later box has IoU above
the NMS threshold `0.3` with an earlier (higher-scored) one; a lone detection
at confidence 0.79 is excluded, and the corresponding run prints a single
success record with an empty detections array. -/
theorem detections_conf_and_nms (iou : Det → Det → ℚ) (scores boxes : List (List ℚ)) :
    (∀ d ∈ analyze_mammogram iou scores boxes, CONF_THRESH ≤ d.confidence) ∧
    List.Pairwise (fun a b => iou (ofDetection a) (ofDetection b) ≤ 3 / 10)
      (analyze_mammogram iou scores boxes) ∧
    analyze_mammogram iou [[0, 79 / 100]] [[0, 0, 0, 0, 0, 0, 10, 10]] = [] ∧
    (main_run (some idKey)
      (List.replicate 16 0 ++ [1, 2, 3, 4, 5, 6, 7, 8, 9, 10, 11, 12, 13, 14, 15, 1])
      iou (Except.ok ([[0, 79 / 100]], [[0, 0, 0, 0, 0, 0, 10, 10]]))).printed =
      [RunOutput.success []] := by
  have hscen : analyze_mammogram iou [[0, 79 / 100]] [[0, 0, 0, 0, 0, 0, 10, 10]] = [] := by
    show List.map toDetection (List.filter _ (nmsKeep iou (3 / 10)
      (mkDets [[0, 79 / 100]] [[0, 0, 0, 0, 0, 0, 10, 10]]))) = []
    norm_num [nmsKeep, nmsAux, mkDets, mkDet, CONF_THRESH, List.insertionSort,
      List.orderedInsert]
  refine ⟨?_, ?_, hscen, ?_⟩
  · intro d hd
    obtain ⟨e, he, rfl⟩ := List.mem_map.mp hd
    have he' : e ∈ (nmsKeep iou (3 / 10) (mkDets scores boxes)).filter
        (fun d => decide (CONF_THRESH ≤ d.score)) := he
    exact of_decide_eq_true (List.mem_filter.mp he').2
  · show List.Pairwise _ (List.map toDetection (analyze_dets iou scores boxes))
    rw [List.pairwise_map]
    exact (nmsKeep_pairwise iou (3 / 10) (mkDets scores boxes)).sublist
      (List.filter_sublist _)
  · have hd : decrypt_file (some idKey)
        (List.replicate 16 0 ++ [1, 2, 3, 4, 5, 6, 7, 8, 9, 10, 11, 12, 13, 14, 15, 1]) =
        some [1, 2, 3, 4, 5, 6, 7, 8, 9, 10, 11, 12, 13, 14, 15] := by decide
    unfold main_run
    rw [hd]
    simp only [hscen]

/-! ## Claim C6 -/

/-- C6: the detections emitted by `analyze_mammogram` are sorted by descending
confidence, and the output list is exactly the NMS-kept order (which processes
candidates in descending score order) restricted to the detections at or above
the confidence threshold. -/
theorem detections_sorted_desc (iou : Det → Det → ℚ) (scores boxes : List (List ℚ)) :
    List.Sorted (fun a b : Detection => b.confidence ≤ a.confidence)
      (analyze_mammogram iou scores boxes) ∧
    analyze_mammogram iou scores boxes =
      ((nmsKeep iou (3 / 10) (mkDets scores boxes)).filter
        (fun d => decide (CONF_THRESH ≤ d.score))).map toDetection := by
  constructor
  · have hs : List.Sorted detGE (analyze_dets iou scores boxes) :=
      (nmsKeep_sorted iou (3 / 10) (mkDets scores boxes)).filter _
    show List.Pairwise (fun a b : Detection => b.confidence ≤ a.confidence)
      (List.map toDetection (analyze_dets iou scores boxes))
    rw [List.pairwise_map]
    exact hs
  · rfl

/-! ### Lemmas about the normalizer -/

theorem le_foldr_max (r : List ℚ) (v : ℚ) (hv : v ∈ r) : v ≤ r.foldr max 0 := by
  induction r with
  | nil => simp at hv
  | cons x xs ih =>
    rcases List.mem_cons.mp hv with h | h
    · subst h; exact le_max_left v _
    · exact le_trans (ih h) (le_max_right x _)

theorem foldr_max_nonneg (r : List ℚ) : 0 ≤ r.foldr max 0 := by
  induction r with
  | nil => simp
  | cons x xs ih => exact le_trans ih (le_max_right x _)

theorem imgMax_ge (img : List (List ℚ)) (r : List ℚ) (hr : r ∈ img)
    (v : ℚ) (hv : v ∈ r) : v ≤ imgMax img := by
  have h1 : r.foldr max 0 ∈ img.map (fun s => s.foldr max 0) :=
    List.mem_map_of_mem _ hr
  exact le_trans (le_foldr_max r v hv) (le_foldr_max _ _ h1)

theorem imgMax_nonneg (img : List (List ℚ)) : 0 ≤ imgMax img :=
  foldr_max_nonneg _

theorem foldr_max_eq_zero (l : List ℚ) (h : ∀ v ∈ l, v = 0) : l.foldr max 0 = 0 := by
  induction l with
  | nil => rfl
  | cons x xs ih =>
    have hx : x = 0 := h x (by simp)
    have hxs : xs.foldr max 0 = 0 := ih (fun v hv => h v (by simp [hv]))
    simp [hx, hxs, List.foldr_cons]

theorem imgMax_zero (img : List (List ℚ)) (h : ∀ r ∈ img, ∀ v ∈ r, v = 0) :
    imgMax img = 0 := by
  unfold imgMax
  apply foldr_max_eq_zero
  intro v hv
  obtain ⟨r, hr, rfl⟩ := List.mem_map.mp hv
  exact foldr_max_eq_zero r (h r hr)

theorem map_map_lengths {α β : Type} (f : α → β) (img : List (List α)) :
    (img.map (fun r => r.map f)).map List.length = img.map List.length := by
  induction img with
  | nil => rfl
  | cons r t ih => simp [ih]

theorem invert_nonneg (img : List (List ℚ)) :
    ∀ r ∈ invertImg img, ∀ v ∈ r, 0 ≤ v := by
  intro r hr v hv
  obtain ⟨r0, hr0, rfl⟩ := List.mem_map.mp hr
  obtain ⟨v0, hv0, rfl⟩ := List.mem_map.mp hv
  have := imgMax_ge img r0 hr0 v0 hv0
  linarith

theorem rescale_toU8_le (src : List (List ℚ))
    (hnn : ∀ r ∈ src, ∀ v ∈ r, 0 ≤ v) (hM : imgMax src ≠ 0) :
    ∀ row ∈ (rescaleImg src).map (fun r => r.map toU8), ∀ p ∈ row, p ≤ 255 := by
  intro row hrow p hp
  obtain ⟨r1, hr1, rfl⟩ := List.mem_map.mp hrow
  obtain ⟨q, hq, rfl⟩ := List.mem_map.mp hp
  obtain ⟨r0, hr0, rfl⟩ := List.mem_map.mp hr1
  obtain ⟨v, hv, rfl⟩ := List.mem_map.mp hq
  have hMpos : 0 < imgMax src := lt_of_le_of_ne (imgMax_nonneg src) (Ne.symm hM)
  have hv0 : 0 ≤ v := hnn r0 hr0 v hv
  have hvM : v ≤ imgMax src := imgMax_ge src r0 hr0 v hv
  have hq255 : 255 * v / imgMax src ≤ 255 := by
    rw [div_le_iff₀ hMpos]
    nlinarith
  have hfloor : ⌊255 * v / imgMax src⌋ ≤ 255 := by
    have := Int.floor_le_floor hq255
    simpa using this
  unfold toU8
  exact Int.toNat_le.mpr hfloor

theorem rescaled_channel_props (img src : List (List ℚ))
    (hnn : ∀ r ∈ src, ∀ v ∈ r, 0 ≤ v) (hM : imgMax src ≠ 0)
    (hlen : src.map List.length = img.map List.length) :
    ((rescaleImg src).map (fun r => r.map toU8)).length = img.length ∧
    ((rescaleImg src).map (fun r => r.map toU8)).map List.length = img.map List.length ∧
    ∀ row ∈ (rescaleImg src).map (fun r => r.map toU8), ∀ p ∈ row, p ≤ 255 := by
  have hlens : ((rescaleImg src).map (fun r => r.map toU8)).map List.length =
      img.map List.length := by
    rw [map_map_lengths toU8 (rescaleImg src)]
    rw [rescaleImg, map_map_lengths _ src]
    exact hlen
  refine ⟨?_, hlens, rescale_toU8_le src hnn hM⟩
  have := congrArg List.length hlens
  simpa using this

/-! ## Claim C8 -/

/-- C8: on every image for which `preprocess_image` performs a well-defined
rescale (nonnegative pixel data and a nonzero divisor, i.e. the run that
succeeds rather than hitting the degenerate zero-max case), the result has
three identical channels, the channel has the source's height and the source's
row widths, and every stored pixel value lies in `[0, 255]` (values are
naturals, so `0 ≤ p` is inherent; the upper bound is proved). -/
theorem preprocess_invariants (isDicom mono1 : Bool) (img : List (List ℚ))
    (hnn : ∀ r ∈ img, ∀ v ∈ r, 0 ≤ v)
    (hdiv : rescaleDivisor isDicom mono1 img ≠ 0) :
    (preprocess_image isDicom mono1 img).ch0 = (preprocess_image isDicom mono1 img).ch1 ∧
    (preprocess_image isDicom mono1 img).ch1 = (preprocess_image isDicom mono1 img).ch2 ∧
    (preprocess_image isDicom mono1 img).ch0.length = img.length ∧
    (preprocess_image isDicom mono1 img).ch0.map List.length = img.map List.length ∧
    ∀ row ∈ (preprocess_image isDicom mono1 img).ch0, ∀ p ∈ row, p ≤ 255 := by
  cases isDicom with
  | true =>
    cases mono1 with
    | true =>
      have hM : imgMax (invertImg img) ≠ 0 := by
        simpa [rescaleDivisor] using hdiv
      have h := rescaled_channel_props img (invertImg img) (invert_nonneg img) hM
        (map_map_lengths _ img)
      exact ⟨rfl, rfl, h.1, h.2.1, h.2.2⟩
    | false =>
      have hM : imgMax img ≠ 0 := by simpa [rescaleDivisor] using hdiv
      have h := rescaled_channel_props img img hnn hM rfl
      exact ⟨rfl, rfl, h.1, h.2.1, h.2.2⟩
  | false =>
    have hM : imgMax img ≠ 0 := by simpa [rescaleDivisor] using hdiv
    have h := rescaled_channel_props img img hnn hM rfl
    exact ⟨rfl, rfl, h.1, h.2.1, h.2.2⟩

/-- Closed witness for `preprocess_invariants` on a concrete 2×2 grayscale
image with maximum 4. -/
theorem preprocess_invariants_witness :
    (preprocess_image false false [[1, 2], [0, 4]]).ch0 =
      (preprocess_image false false [[1, 2], [0, 4]]).ch1 ∧
    (preprocess_image false false [[1, 2], [0, 4]]).ch1 =
      (preprocess_image false false [[1, 2], [0, 4]]).ch2 ∧
    (preprocess_image false false [[1, 2], [0, 4]]).ch0.length =
      ([[1, 2], [0, 4]] : List (List ℚ)).length ∧
    (preprocess_image false false [[1, 2], [0, 4]]).ch0.map List.length =
      ([[1, 2], [0, 4]] : List (List ℚ)).map List.length ∧
    ∀ row ∈ (preprocess_image false false [[1, 2], [0, 4]]).ch0, ∀ p ∈ row, p ≤ 255 :=
  preprocess_invariants false false [[1, 2], [0, 4]]
    (by decide) (by decide)

/-! ## Claim C9 -/

/-- C9: on an all-zero image the max-based rescale divides by a zero divisor
on every path — DICOM or not, MONOCHROME1-inverted or not — since both the
raw maximum and the post-inversion maximum are zero and `preprocess_image`
applies the rescale unconditionally (last conjunct: the produced channel is
the unguarded rescale of the selected array, so the division `255.0 * img /
img.max()` is reached with `img.max() = 0`). -/
theorem all_zero_divisor (isDicom mono1 : Bool) (img : List (List ℚ))
    (hz : ∀ r ∈ img, ∀ v ∈ r, v = 0) :
    rescaleDivisor isDicom mono1 img = 0 ∧
    imgMax img = 0 ∧
    imgMax (invertImg img) = 0 ∧
    (preprocess_image isDicom mono1 img).ch0 =
      ((if isDicom then rescaleImg (if mono1 then invertImg img else img)
        else rescaleImg img).map (fun r => r.map toU8)) := by
  have h0 : imgMax img = 0 := imgMax_zero img hz
  have hinv : imgMax (invertImg img) = 0 := by
    apply imgMax_zero
    intro r hr v hv
    obtain ⟨r0, hr0, rfl⟩ := List.mem_map.mp hr
    obtain ⟨v0, hv0, rfl⟩ := List.mem_map.mp hv
    rw [hz r0 hr0 v0 hv0, h0]
    ring
  refine ⟨?_, h0, hinv, rfl⟩
  cases isDicom <;> cases mono1 <;> simp [rescaleDivisor, h0, hinv]

/-- Closed witness for `all_zero_divisor` on a concrete all-zero 2×2 DICOM
MONOCHROME1 image. -/
theorem all_zero_divisor_witness :
    rescaleDivisor true true [[0, 0], [0, 0]] = 0 ∧
    imgMax [[0, 0], [0, 0]] = 0 ∧
    imgMax (invertImg [[0, 0], [0, 0]]) = 0 ∧
    (preprocess_image true true [[0, 0], [0, 0]]).ch0 =
      ((if true then rescaleImg (if true then invertImg [[0, 0], [0, 0]]
        else [[0, 0], [0, 0]]) else rescaleImg [[0, 0], [0, 0]]).map
        (fun r => r.map toU8)) :=
  all_zero_divisor true true [[0, 0], [0, 0]] (by decide)

/-- Closed witness for `detections_conf_and_nms`: the scenario-D instance of
the theorem at a concrete IoU measure. -/
theorem detections_conf_and_nms_witness :
    analyze_mammogram (fun _ _ => 0) [[0, 79 / 100]] [[0, 0, 0, 0, 0, 0, 10, 10]] = [] :=
  (detections_conf_and_nms (fun _ _ => 0) [[0, 79 / 100]]
    [[0, 0, 0, 0, 0, 0, 10, 10]]).2.2.1

/-- Closed witness for `detections_sorted_desc` at a concrete IoU measure and
detector output. -/
theorem detections_sorted_desc_witness :
    List.Sorted (fun a b : Detection => b.confidence ≤ a.confidence)
      (analyze_mammogram (fun _ _ => 0) [[0, 79 / 100], [0, 9 / 10]]
        [[0, 0, 0, 0, 0, 0, 10, 10], [0, 0, 0, 0, 1, 1, 9, 9]]) :=
  (detections_sorted_desc (fun _ _ => 0) [[0, 79 / 100], [0, 9 / 10]]
    [[0, 0, 0, 0, 0, 0, 10, 10], [0, 0, 0, 0, 1, 1, 9, 9]]).1
